import Mathlib

/-!
Verification of the word-classification core of `final_export.py`
(`q6_vocabulary_analyzer.py`).

The program classifies each unique word of a transcript corpus as
"correct spelling" or "incorrect spelling" using a two-stage decision:
exact membership in a hard-coded reference vocabulary, then a bounded
Levenshtein-distance search (radius 1) over that vocabulary.

Tokens are modelled as `List Char` (Lean `Char` is a Unicode scalar
value, matching the code-point semantics of Python strings).  The
Python `set` of vocabulary words is modelled as a list of its members;
order- and duplication-independence of every operation on it is proved
rather than assumed.
-/

/-- The two-valued classification label.  The source returns the strings
`"correct spelling"` and `"incorrect spelling"`; this inductive embeds
exactly those two discriminants. -/
inductive ClassificationResult where
  | correctSpelling
  | incorrectSpelling
deriving DecidableEq, Repr

/-- Modelled from the spec: the `distance` function imported in
`final_export.py` line 17 from the external `Levenshtein` library is not
part of the repository.  The spec fixes its semantics: "standard
Levenshtein distance (dynamic-programming table over two strings
measured in ... Unicode code points)" with "insertions, deletions,
substitutions, unit cost each".  `distRow` computes the DP row for
`x :: xs` from the row for `xs` (given as the function `dxs`), keeping
the recursion structural so the kernel can evaluate it. -/
def distRow (dxs : List Char → Nat) (x : Char) : List Char → Nat
  | [] => dxs [] + 1
  | y :: ys =>
      min (dxs (y :: ys) + 1)
        (min (distRow dxs x ys + 1)
          (dxs ys + (if x = y then 0 else 1)))

/-- Modelled from the spec: standard Levenshtein distance over Unicode
code points, the semantics the spec assigns to the imported `distance`. -/
def distance : List Char → List Char → Nat
  | [] => fun ys => ys.length
  | x :: xs => distRow (distance xs) x

theorem distance_nil_left (ys : List Char) : distance [] ys = ys.length := rfl

theorem distance_nil_right (xs : List Char) : distance xs [] = xs.length := by
  cases xs with
  | nil => rfl
  | cons x xs => simp [distance, distRow, distance_nil_right xs]

theorem distance_cons_cons (x y : Char) (xs ys : List Char) :
    distance (x :: xs) (y :: ys) =
      min (distance xs (y :: ys) + 1)
        (min (distance (x :: xs) ys + 1)
          (distance xs ys + (if x = y then 0 else 1))) := rfl

theorem distance_self (a : List Char) : distance a a = 0 := by
  induction a with
  | nil => rfl
  | cons x xs ih => simp [distance_cons_cons, ih]

/-- `MAX_EDIT_DISTANCE` from `classify_word` (line 75). -/
def MAX_EDIT_DISTANCE : Nat := 1

/-- The `for correct_word in correct_set: if distance(word, correct_word)
<= MAX_EDIT_DISTANCE: is_typo = True; break` loop of `classify_word`
(lines 77-84), as the spec's `hasNeighborWithinDistance`: a short-circuit
scan over an enumeration of the vocabulary. -/
def hasNeighborWithinDistance (word : List Char) (maxDistance : Nat) :
    List (List Char) → Bool
  | [] => false
  | v :: rest =>
      if distance word v ≤ maxDistance then true
      else hasNeighborWithinDistance word maxDistance rest

/-- `classify_word` (lines 67-92): exact dictionary lookup, then the
edit-distance scan, then the default branch.  Both the `is_typo` branch
(line 87) and the default branch (line 92) return "incorrect spelling". -/
def classify_word (word : List Char) (correct_set : List (List Char)) :
    ClassificationResult :=
  if word ∈ correct_set then ClassificationResult.correctSpelling
  else
    let is_typo := hasNeighborWithinDistance word MAX_EDIT_DISTANCE correct_set
    if is_typo then ClassificationResult.incorrectSpelling
    else ClassificationResult.incorrectSpelling

/-- State-passing embedding of a `classify_word` call: the body of
`classify_word` contains no statement writing to `correct_set`, so the
vocabulary component of the state is the one the call received. -/
def classify_word_st (word : List Char) (correct_set : List (List Char)) :
    ClassificationResult × List (List Char) :=
  (classify_word word correct_set, correct_set)

/-- The classification loop of `main` (lines 108-117), threading the
vocabulary state through the successive `classify_word` calls. -/
def classify_all :
    List (List Char) → List (List Char) →
      List ClassificationResult × List (List Char)
  | [], correct_set => ([], correct_set)
  | w :: ws, correct_set =>
      let step := classify_word_st w correct_set
      let rest := classify_all ws step.2
      (step.1 :: rest.1, rest.2)

/-- `HINDI_CORE_WORDS` (lines 26-30). -/
def HINDI_CORE_WORDS : List (List Char) :=
  ["बात".toList, "होता".toList, "कि".toList, "जनजाति".toList, "पैसा".toList,
   "लोग".toList, "देखना".toList, "था".toList, "अब".toList, "अच्छा".toList,
   "कारण".toList, "जीवन".toList, "सही".toList, "किताब".toList, "स्कूल".toList,
   "उधर".toList, "उन्हें".toList, "उनको".toList, "चाहिए".toList, "कुछ".toList,
   "मैम".toList, "देश".toList, "भारत".toList, "चाहते".toList, "वहां".toList,
   "तरफ".toList, "काम".toList]

/-- `CODE_SWITCHED_WORDS` (lines 31-35). -/
def CODE_SWITCHED_WORDS : List (List Char) :=
  ["प्रोजेक्ट".toList, "एरिया".toList, "एटीट्यूड".toList, "मैनेजर".toList,
   "टेक्नोलॉजी".toList, "इंटरनेट".toList, "कंप्यूटर".toList, "डेटा".toList,
   "फाइल".toList, "कमेंट".toList, "लैपटॉप".toList, "स्टूडेंट".toList,
   "ट्रैफिक".toList, "टॉपिक".toList, "क्लासेस".toList, "इम्प्रूवमेंट".toList]

/-- `CORRECT_WORDS = HINDI_CORE_WORDS.union(CODE_SWITCHED_WORDS)`
(line 36); the union of two sets is enumerated by concatenating their
enumerations (the two sets are disjoint, and membership in the
concatenation is membership in the union either way). -/
def CORRECT_WORDS : List (List Char) :=
  HINDI_CORE_WORDS ++ CODE_SWITCHED_WORDS

/-- A single edit operation on a string of code points: insertion,
deletion, or substitution of one character, as in the spec's glossary
entry for Levenshtein distance. -/
inductive Edit : List Char → List Char → Prop where
  | insert (u v : List Char) (c : Char) : Edit (u ++ v) (u ++ c :: v)
  | delete (u v : List Char) (c : Char) : Edit (u ++ c :: v) (u ++ v)
  | substitute (u v : List Char) (c d : Char) : Edit (u ++ c :: v) (u ++ d :: v)

/-- `EditSeq n a b`: `b` is obtained from `a` by a sequence of exactly
`n` single-character edit operations. -/
inductive EditSeq : Nat → List Char → List Char → Prop where
  | refl (a : List Char) : EditSeq 0 a a
  | step {n : Nat} {a b c : List Char} :
      Edit a b → EditSeq n b c → EditSeq (n + 1) a c

theorem edit_cons {a b : List Char} (x : Char) (h : Edit a b) :
    Edit (x :: a) (x :: b) := by
  cases h with
  | insert u v c => exact Edit.insert (x :: u) v c
  | delete u v c => exact Edit.delete (x :: u) v c
  | substitute u v c d => exact Edit.substitute (x :: u) v c d

theorem editSeq_cons {n : Nat} {a b : List Char} (x : Char)
    (h : EditSeq n a b) : EditSeq n (x :: a) (x :: b) := by
  induction h with
  | refl a => exact EditSeq.refl (x :: a)
  | step e _ ih => exact EditSeq.step (edit_cons x e) ih

theorem EditSeq.trans {m n : Nat} {a b c : List Char}
    (h₁ : EditSeq m a b) (h₂ : EditSeq n b c) : EditSeq (m + n) a c := by
  induction h₁ with
  | refl a => simpa using h₂
  | step e h ih =>
      have h3 := EditSeq.step e (ih h₂)
      exact Nat.add_right_comm _ 1 _ ▸ h3

theorem editSeq_nil_to (ys : List Char) : EditSeq ys.length [] ys := by
  induction ys with
  | nil => exact EditSeq.refl []
  | cons y ys ih =>
      exact EditSeq.step (Edit.insert [] [] y) (editSeq_cons y ih)

theorem editSeq_to_nil (xs : List Char) : EditSeq xs.length xs [] := by
  induction xs with
  | nil => exact EditSeq.refl []
  | cons x xs ih =>
      exact EditSeq.step (Edit.delete [] xs x) ih

theorem editSeq_distance (a : List Char) : ∀ b, EditSeq (distance a b) a b := by
  induction a with
  | nil =>
      intro b
      simpa [distance_nil_left] using editSeq_nil_to b
  | cons x xs ih =>
      intro b
      induction b with
      | nil =>
          simpa [distance_nil_right] using editSeq_to_nil (x :: xs)
      | cons y ys ihb =>
          rw [distance_cons_cons]
          set A := distance xs (y :: ys) with hA
          set B := distance (x :: xs) ys with hB
          set C := distance xs ys with hC
          have hdel : EditSeq (A + 1) (x :: xs) (y :: ys) :=
            EditSeq.step (Edit.delete [] xs x) (ih (y :: ys))
          have hins : EditSeq (B + 1) (x :: xs) (y :: ys) :=
            ihb.trans (EditSeq.step (Edit.insert [] ys y) (EditSeq.refl (y :: ys)))
          rcases Nat.le_total (A + 1) (min (B + 1) (C + if x = y then 0 else 1)) with hm | hm
          · rw [Nat.min_eq_left hm]
            exact hdel
          · rw [Nat.min_eq_right hm]
            rcases Nat.le_total (B + 1) (C + if x = y then 0 else 1) with hm2 | hm2
            · rw [Nat.min_eq_left hm2]
              exact hins
            · rw [Nat.min_eq_right hm2]
              by_cases hxy : x = y
              · subst hxy
                simpa using editSeq_cons x (ih ys)
              · simp only [hxy, if_neg, ite_false]
                exact EditSeq.step (Edit.substitute [] xs x y) (editSeq_cons y (ih ys))

theorem distance_cons_right_le (a : List Char) (y : Char) (b : List Char) :
    distance a (y :: b) ≤ distance a b + 1 := by
  cases a with
  | nil => simp [distance_nil_left]
  | cons x xs =>
      rw [distance_cons_cons]
      exact le_trans (Nat.min_le_right _ _) (Nat.min_le_left _ _)

theorem distance_del_head (c : Char) (v w : List Char) :
    distance (c :: v) w ≤ distance v w + 1 := by
  cases w with
  | nil => simp [distance_nil_right]
  | cons y w' =>
      rw [distance_cons_cons]
      exact Nat.min_le_left _ _

theorem length_le_distance_add (a : List Char) :
    ∀ b : List Char, b.length ≤ distance a b + a.length := by
  induction a with
  | nil =>
      intro b
      simp [distance_nil_left]
  | cons x xs ih =>
      intro b
      induction b with
      | nil => simp
      | cons y ys ihb =>
          rw [distance_cons_cons]
          have h1 := ih (y :: ys)
          have h2 := ihb
          have h3 := ih ys
          have hc : (if x = y then (0 : Nat) else 1) ≤ 1 := by split <;> omega
          simp only [List.length_cons] at *
          omega

theorem distance_ins_head : ∀ (w v : List Char) (c : Char),
    distance v w ≤ distance (c :: v) w + 1 := by
  intro w
  induction w with
  | nil =>
      intro v c
      simp only [distance_nil_right, List.length_cons]
      omega
  | cons y w' ihw =>
      intro v c
      cases v with
      | nil =>
          have hlb := length_le_distance_add [c] (y :: w')
          simp only [distance_nil_left, List.length_cons, List.length_nil] at *
          omega
      | cons z v' =>
          rw [distance_cons_cons c y (z :: v') w']
          have h1 := distance_cons_right_le (z :: v') y w'
          have h2 := ihw (z :: v') c
          omega

theorem distance_sub_head : ∀ (w v : List Char) (c d : Char),
    distance (c :: v) w ≤ distance (d :: v) w + 1 := by
  intro w
  induction w with
  | nil =>
      intro v c d
      simp [distance_nil_right]
  | cons y w' ihw =>
      intro v c d
      rw [distance_cons_cons c y v w', distance_cons_cons d y v w']
      have h2 := ihw v c d
      have hcc : (if c = y then (0 : Nat) else 1) ≤ 1 := by split <;> omega
      omega

theorem distance_cons_le_cons {a b : List Char}
    (hab : ∀ w, distance a w ≤ distance b w + 1) :
    ∀ (x : Char) (w : List Char), distance (x :: a) w ≤ distance (x :: b) w + 1 := by
  intro x w
  induction w with
  | nil =>
      have h := hab []
      simp only [distance_nil_right, List.length_cons] at *
      omega
  | cons y w' ihw =>
      rw [distance_cons_cons x y a w', distance_cons_cons x y b w']
      have h1 := hab (y :: w')
      have h3 := hab w'
      omega

theorem distance_append_le {v v' : List Char}
    (hvv : ∀ w, distance v w ≤ distance v' w + 1) :
    ∀ (u w : List Char), distance (u ++ v) w ≤ distance (u ++ v') w + 1 := by
  intro u
  induction u with
  | nil => simpa using hvv
  | cons x u' ih => intro w; exact distance_cons_le_cons ih x w

theorem edit_distance_le {a b : List Char} (e : Edit a b) :
    ∀ w, distance a w ≤ distance b w + 1 := by
  cases e with
  | insert u v c => exact distance_append_le (fun w => distance_ins_head w v c) u
  | delete u v c => exact distance_append_le (fun w => distance_del_head c v w) u
  | substitute u v c d =>
      exact distance_append_le (fun w => distance_sub_head w v c d) u

theorem distance_le_editSeq {n : Nat} {a b : List Char} (h : EditSeq n a b) :
    distance a b ≤ n := by
  induction h with
  | refl a => simp [distance_self]
  | step e h ih =>
      rename_i n' a' b' c'
      have h2 := edit_distance_le e c'
      omega

theorem hasNeighborWithinDistance_iff (t : List Char) (d : Nat)
    (l : List (List Char)) :
    hasNeighborWithinDistance t d l = true ↔ ∃ v ∈ l, distance t v ≤ d := by
  induction l with
  | nil => simp [hasNeighborWithinDistance]
  | cons v rest ih =>
      by_cases h : distance t v ≤ d
      · simp only [hasNeighborWithinDistance, if_pos h, true_iff]
        exact ⟨v, List.mem_cons_self v rest, h⟩
      · simp only [hasNeighborWithinDistance, if_neg h, ih]
        constructor
        · rintro ⟨u, hu, hud⟩
          exact ⟨u, List.mem_cons_of_mem v hu, hud⟩
        · rintro ⟨u, hu, hud⟩
          rcases List.mem_cons.mp hu with rfl | hu
          · exact absurd hud h
          · exact ⟨u, hu, hud⟩

theorem classify_all_snd (ws : List (List Char)) (V : List (List Char)) :
    (classify_all ws V).2 = V := by
  induction ws with
  | nil => rfl
  | cons w ws ih => simpa [classify_all, classify_word_st] using ih

theorem classify_all_fst (ws : List (List Char)) (V : List (List Char)) :
    (classify_all ws V).1 = ws.map (fun w => classify_word w V) := by
  induction ws with
  | nil => rfl
  | cons w ws ih => simp [classify_all, classify_word_st, ih]

/-- C1: a token that is a member of the vocabulary is classified
`correctSpelling`; the exact-match test of `classify_word` is evaluated
before the edit-distance scan, so membership decides the result
regardless of any distance computation. -/
theorem spec_exact_match_correct (t : List Char) (V : List (List Char))
    (h : t ∈ V) : classify_word t V = ClassificationResult.correctSpelling := by
  simp [classify_word, h]

theorem spec_exact_match_correct_witness :
    classify_word "बात".toList ["बात".toList, "काम".toList] =
      ClassificationResult.correctSpelling :=
  spec_exact_match_correct _ _ (by decide)

/-- C2: a token that is not a member of the vocabulary is classified
`incorrectSpelling`, whether or not some vocabulary entry is within
edit distance 1 (both the `is_typo` branch and the default branch of
`classify_word` return it); the empty vocabulary is the special case
`V = []`. -/
theorem spec_not_member_incorrect (t : List Char) (V : List (List Char))
    (h : t ∉ V) : classify_word t V = ClassificationResult.incorrectSpelling := by
  simp only [classify_word, if_neg h]
  split <;> rfl

theorem spec_not_member_incorrect_witness :
    (classify_word "कम".toList ["काम".toList] =
        ClassificationResult.incorrectSpelling) ∧
      (classify_word "कम".toList [] = ClassificationResult.incorrectSpelling) :=
  ⟨spec_not_member_incorrect _ _ (by decide),
   spec_not_member_incorrect _ _ (by decide)⟩

/-- C3: `classify_word` is total: for every token (the empty string and
single-character tokens included) and every finite vocabulary it
produces one of the two `ClassificationResult` discriminants; the
embedding has no error or failure branch, matching the source, whose
body consists only of a membership test, a bounded loop and returns. -/
theorem spec_classify_total (t : List Char) (V : List (List Char)) :
    classify_word t V = ClassificationResult.correctSpelling ∨
      classify_word t V = ClassificationResult.incorrectSpelling := by
  by_cases h : t ∈ V
  · exact Or.inl (by simp [classify_word, h])
  · refine Or.inr ?_
    simp only [classify_word, if_neg h]
    split <;> rfl

/-- C4: classification is deterministic and idempotent: any two calls of
`classify_word` on the same `(token, vocabulary)` pair yield the same
result, independent of evaluation order or prior calls (the embedded
function reads no state other than its arguments). -/
theorem spec_classify_deterministic (t : List Char) (V : List (List Char))
    (r₁ r₂ : ClassificationResult)
    (h₁ : r₁ = classify_word t V) (h₂ : r₂ = classify_word t V) : r₁ = r₂ :=
  h₁.trans h₂.symm

theorem spec_classify_deterministic_witness :
    ClassificationResult.correctSpelling = ClassificationResult.correctSpelling :=
  spec_classify_deterministic "बात".toList ["बात".toList] _ _
    (by decide) (by decide)

/-- C5: the bounded neighbor search is a pure existential query: the
short-circuit scan returns `true` exactly when some vocabulary member is
within distance `d` of the token, and its result is unchanged under any
reordering (or re-enumeration) of the vocabulary members. -/
theorem spec_neighbor_existential (t : List Char) (V : List (List Char))
    (d : Nat) :
    (hasNeighborWithinDistance t d V = true ↔ ∃ v ∈ V, distance t v ≤ d) ∧
      ∀ V' : List (List Char), (∀ v, v ∈ V ↔ v ∈ V') →
        hasNeighborWithinDistance t d V = hasNeighborWithinDistance t d V' := by
  refine ⟨hasNeighborWithinDistance_iff t d V, ?_⟩
  intro V' hVV
  cases hb : hasNeighborWithinDistance t d V with
  | true =>
      rcases (hasNeighborWithinDistance_iff t d V).mp hb with ⟨v, hv, hvd⟩
      exact ((hasNeighborWithinDistance_iff t d V').mpr
        ⟨v, (hVV v).mp hv, hvd⟩).symm
  | false =>
      cases hb' : hasNeighborWithinDistance t d V' with
      | false => rfl
      | true =>
          rcases (hasNeighborWithinDistance_iff t d V').mp hb' with ⟨v, hv, hvd⟩
          have hcontra := (hasNeighborWithinDistance_iff t d V).mpr
            ⟨v, (hVV v).mpr hv, hvd⟩
          rw [hb] at hcontra
          cases hcontra

theorem spec_neighbor_existential_witness :
    (hasNeighborWithinDistance "कम".toList 1 ["भारत".toList, "काम".toList] =
        hasNeighborWithinDistance "कम".toList 1 ["काम".toList, "भारत".toList]) ∧
      hasNeighborWithinDistance "कम".toList 1 ["भारत".toList, "काम".toList] =
        true :=
  ⟨(spec_neighbor_existential "कम".toList ["भारत".toList, "काम".toList] 1).2
      ["काम".toList, "भारत".toList]
      (by intro v; simp only [List.mem_cons, List.not_mem_nil, or_false]; tauto),
   (spec_neighbor_existential "कम".toList ["भारत".toList, "काम".toList] 1).1.mpr
      ⟨"काम".toList, by simp, by decide⟩⟩

/-- C6: the edit-distance function used by classification is the standard
Levenshtein distance over Unicode code points: for every pair of
strings, `distance a b` (the DP recurrence, with no case or diacritic
normalization) is the least number of single-character insertions,
deletions and substitutions (unit cost each) transforming `a` into `b`. -/
theorem spec_distance_is_levenshtein (a b : List Char) :
    IsLeast {n : Nat | EditSeq n a b} (distance a b) :=
  ⟨editSeq_distance a b, fun _ hn => distance_le_editSeq hn⟩

theorem spec_distance_is_levenshtein_witness :
    EditSeq (distance "कम".toList "काम".toList) "कम".toList "काम".toList :=
  (spec_distance_is_levenshtein "कम".toList "काम".toList).1

/-- C7: the edit-distance function is symmetric: `distance a b` equals
`distance b a` for every pair of strings. -/
theorem spec_distance_symm (a : List Char) :
    ∀ b : List Char, distance a b = distance b a := by
  induction a with
  | nil =>
      intro b
      rw [distance_nil_left, distance_nil_right]
  | cons x xs ih =>
      intro b
      induction b with
      | nil => rw [distance_nil_left, distance_nil_right]
      | cons y ys ihb =>
          rw [distance_cons_cons x y xs ys, distance_cons_cons y x ys xs]
          have h1 := ih (y :: ys)
          have h3 := ih ys
          have hc : (if x = y then (0 : Nat) else 1) =
              (if y = x then (0 : Nat) else 1) := by
            by_cases h : x = y
            · simp [h]
            · have h4 : ¬ y = x := fun hyx => h hyx.symm
              simp [h, h4]
          rw [h1, ihb, h3, hc]
          omega

/-- C8: the edit distance between the empty string and any string `s`
equals the length of `s` (in code points). -/
theorem spec_distance_empty_left (s : List Char) :
    distance [] s = s.length := rfl

/-- C9: classification never mutates the vocabulary: in the state-passing
embedding, the vocabulary coming out of a `classify_word` call — and out
of the whole classification loop of `main` — is the vocabulary that went
in, and every result is computed against that unchanged vocabulary. -/
theorem spec_vocab_unchanged (t : List Char) (ws V : List (List Char)) :
    (classify_word_st t V).2 = V ∧ (classify_all ws V).2 = V ∧
      (classify_all ws V).1 = ws.map (fun w => classify_word w V) :=
  ⟨rfl, classify_all_snd ws V, classify_all_fst ws V⟩

/-- C10: the empty-string token, classified against the program's
hard-coded `CORRECT_WORDS` vocabulary, yields `incorrectSpelling`: it is
not a member, and every entry of the hard-coded vocabulary has length at
least 2 code points, so no entry is within edit distance 1 of it. -/
theorem spec_empty_token_incorrect :
    classify_word [] CORRECT_WORDS = ClassificationResult.incorrectSpelling ∧
      ∀ v ∈ CORRECT_WORDS, 2 ≤ v.length := by decide
